import Mathlib

/-!
Verification of the schema-bob schema/validation engine (serialization.ts).

The engine is embedded shallowly: JS runtime values become the inductive
type `Value`, schema nodes become the inductive type `Schema` (one
constructor per builder: bool, str, num, u8array, optional, rec, extend,
union, list), and each `validate` method becomes a case of the recursive
function `validate`.  Thrown JS exceptions are modelled with
`Except VError`, where `VError.invalidType` is the structured
`InvalidTypeError`, `VError.literalMismatch` the plain literal-set `Error`,
`VError.missingDiscriminator` the union-constructor `Error`, and
`VError.jsCrash` an unstructured engine-level `TypeError` (for example a
property read on `null`).
-/

namespace SchemaBob

/-- Model of a JS (float64) number: NaN, signed infinity, or a finite value
(finite doubles are embedded into the rationals; negative zero is collapsed
to zero, which matches both `===` and `Array.includes` on `0` and `-0`).
Structural equality of `JsNum` is exactly the SameValueZero comparison used
by `Array.prototype.includes`: `nan = nan` holds, while the JS strict
equality `===` is the separate function `strictEqNum` below. -/
inductive JsNum where
  | nan
  | inf (pos : Bool)
  | fin (q : ℚ)
deriving DecidableEq, Repr

/-- JS strict equality on numbers: NaN compares unequal to everything,
including itself. -/
def strictEqNum : JsNum → JsNum → Bool
  | .nan, _ => false
  | _, .nan => false
  | a, b => a = b

/-- Model of the JS runtime values the engine manipulates: null, undefined,
booleans, strings, numbers, Uint8Arrays (byte lists), arrays, and plain
objects (ordered association lists with the unique-key invariant JS objects
have). -/
inductive Value where
  | vNull
  | vUndefined
  | vBool (b : Bool)
  | vStr (s : String)
  | vNum (n : JsNum)
  | vBytes (bs : List Nat)
  | vArr (items : List Value)
  | vObj (fields : List (String × Value))

/-- Model of the thrown exceptions. -/
inductive VError where
  | invalidType (name : String) (expected : String) (value : Value)
  | literalMismatch (name : String) (value : Value)
  | missingDiscriminator (sub : String) (uni : String) (disc : String)
  | jsCrash (msg : String)

/-- Schema nodes, one constructor per concrete class of the source:
`BoolType`, `StringType`, `NumberType`, `Uint8ArrayType`, `OptionalType`,
`RecordType`, `ExtendsType`, `UnionRecordType`, `ListType`. -/
inductive Schema where
  | sbool (name : String) (literal : Option Bool)
  | sstr (name : String) (literals : List String)
  | snum (name : String) (literals : List JsNum)
  | sbytes (name : String)
  | sopt (base : Schema)
  | srec (name : String) (fields : List (String × Schema))
  | sext (name : String) (base : Schema) (own : List (String × Schema))
  | sunion (name : String) (disc : String) (branches : List Schema)
  | slist (name : String) (item : Schema)

/-- The JS `typeof` operator on our values.  Note that `typeof null`,
`typeof` of an array and `typeof` of a `Uint8Array` are all `"object"`. -/
def typeofV : Value → String
  | .vNull => "object"
  | .vUndefined => "undefined"
  | .vBool _ => "boolean"
  | .vStr _ => "string"
  | .vNum _ => "number"
  | .vBytes _ => "object"
  | .vArr _ => "object"
  | .vObj _ => "object"

/-- The JS property read `u[key]` as used by `RecordType.validate`.
Reading a property of `null` or `undefined` throws a `TypeError`; a missing
key on an object yields `undefined`; arrays and byte arrays expose `length`
and their index properties. -/
def getProp : Value → String → Except VError Value
  | .vNull, _ => .error (.jsCrash "cannot read properties of null")
  | .vUndefined, _ => .error (.jsCrash "cannot read properties of undefined")
  | .vObj fields, k =>
      match fields.lookup k with
      | some v => .ok v
      | none => .ok .vUndefined
  | .vArr items, k =>
      if k = "length" then .ok (.vNum (.fin items.length))
      else
        match k.toNat? with
        | some i => .ok (if h : i < items.length then items.get ⟨i, h⟩ else .vUndefined)
        | none => .ok .vUndefined
  | .vBytes bs, k =>
      if k = "length" then .ok (.vNum (.fin bs.length))
      else
        match k.toNat? with
        | some i => .ok (if h : i < bs.length then .vNum (.fin (bs.get ⟨i, h⟩)) else .vUndefined)
        | none => .ok .vUndefined
  | _, _ => .ok .vUndefined

/-- JS property assignment `obj[k] = v` on an object's field list: an
existing key is overwritten in place (keeping its original position), a new
key is appended. -/
def objSet (fields : List (String × Value)) (k : String) (v : Value) :
    List (String × Value) :=
  match fields with
  | [] => [(k, v)]
  | (k1, v1) :: rest => if k1 = k then (k, v) :: rest else (k1, v1) :: objSet rest k v

/-- The JS object spread merge as used by `ExtendsType.validate`:
`\x7b...a, ...b\x7d` starts from the entries of `a` and assigns each entry of `b`
over it.  Both arguments are objects for every schema expressible through
the TS builder API (`extend` requires a record-like base); for other shapes
we keep the second argument, a case no claim relies on. -/
def objAssign : Value → Value → Value
  | .vObj fa, .vObj fb => .vObj (fb.foldl (fun acc kv => objSet acc kv.1 kv.2) fa)
  | _, b => b

/-- JS `Array.prototype.indexOf`: index of the first occurrence, `-1` when
absent. -/
def jsIndexOf (l : List String) (x : String) : Int :=
  match l with
  | [] => -1
  | y :: rest =>
      if y = x then 0
      else
        let r := jsIndexOf rest x
        if r < 0 then -1 else r + 1

/-- JS `arr.splice(i, 1)` viewed as a pure function: removes the element at
index `i`, where a negative `i` counts from the end (so `-1` removes the
last element — this is what the union probe does when the discriminator is
not among a branch's own keys). -/
def jsSplice1 (l : List String) (i : Int) : List String :=
  let start : Nat := if i < 0 then ((l.length : Int) + i).toNat else i.toNat
  l.take start ++ l.drop (start + 1)

/-- The JS read `Object.keys(s.schema)` performed by the union probe: only
`RecordType` and `ExtendsType` carry a `schema` own-field table; on any
other node the read crashes with a `TypeError` (`s.schema` is undefined). -/
def schemaKeys : Schema → Except VError (List String)
  | .srec _ fields => .ok (fields.map Prod.fst)
  | .sext _ _ own => .ok (own.map Prod.fst)
  | _ => .error (.jsCrash "Object.keys called on undefined schema table")

/-- The `name` field each `TypeImpl` carries (`OptionalType` passes the
empty string to its superclass constructor). -/
def schemaName : Schema → String
  | .sbool name _ => name
  | .sstr name _ => name
  | .snum name _ => name
  | .sbytes name => name
  | .sopt _ => ""
  | .srec name _ => name
  | .sext name _ _ => name
  | .sunion name _ _ => name
  | .slist name _ => name

mutual

/-- The `validate` methods of the source, one case per class.  The second
argument models the optional `ignoredKeys` parameter (the empty list for a
call that omits it); only `RecordType.validate` declares and uses it — every
other class declares `validate(u)` and silently discards any extra
argument, which the corresponding cases reproduce. -/
def validate (s : Schema) (u : Value) (ign : List String) : Except VError Value :=
  match s with
  | .sbool name lit =>
      match u with
      | .vBool b =>
          match lit with
          | some l =>
              if b = l then .ok (.vBool b)
              else .error (.invalidType name (toString l) (.vBool b))
          | none => .ok (.vBool b)
      | _ => .error (.invalidType name "boolean" u)
  | .sstr name lits =>
      match u with
      | .vStr s1 =>
          if 0 < lits.length ∧ s1 ∉ lits then .error (.literalMismatch name (.vStr s1))
          else .ok (.vStr s1)
      | _ => .error (.invalidType name "string" u)
  | .snum name lits =>
      match u with
      | .vNum n =>
          if 0 < lits.length ∧ n ∉ lits then .error (.literalMismatch name (.vNum n))
          else .ok (.vNum n)
      | _ => .error (.invalidType name "number" u)
  | .sbytes name =>
      match u with
      | .vBytes bs => .ok (.vBytes bs)
      | _ => .error (.invalidType name "u8array" u)
  | .sopt base =>
      match u with
      | .vNull => .ok .vUndefined
      | .vUndefined => .ok .vUndefined
      | _ => validate base u []
  | .srec name fields =>
      if typeofV u ≠ "object" then .error (.invalidType name "object" u)
      else do
        let pairs ← validateFields fields u ign
        pure (.vObj pairs)
  | .sext name base own => do
      let baseResult ← validate base u (own.map Prod.fst)
      -- this.subtype.validate(u) with subtype = new RecordType(name, schema),
      -- the RecordType.validate body inlined at ignoredKeys = none:
      let schemaResult ←
        if typeofV u ≠ "object" then .error (.invalidType name "object" u)
        else do
          let pairs ← validateFields own u []
          pure (Value.vObj pairs)
      pure (objAssign baseResult schemaResult)
  | .sunion name disc branches => unionGo name disc branches u
  | .slist name item =>
      match u with
      | .vArr items => do
          let r ← items.mapM (fun v => validate item v [])
          pure (.vArr r)
      | _ => .error (.invalidType name "array" u)

/-- The field loop of `RecordType.validate`: walk the schema table in
declaration order, skip ignored keys, read the property and validate it,
failing fast on the first field failure. -/
def validateFields (fields : List (String × Schema)) (u : Value) (ign : List String) :
    Except VError (List (String × Value)) :=
  match fields with
  | [] => .ok []
  | (k, fs) :: rest =>
      if k ∈ ign then validateFields rest u ign
      else do
        let propValue ← getProp u k
        let validated ← validate fs propValue []
        let restResult ← validateFields rest u ign
        pure ((k, validated) :: restResult)

/-- `UnionRecordType.validate`: `find` the first branch whose probe
(validation with the branch's own keys, minus the first occurrence of the
discriminator, ignored) does not throw, then fully re-validate against that
branch; with no matching branch throw `InvalidTypeError(name, 'union', u)`.
The `find` callback and the subsequent full validation of the found branch
are fused into one pass here; validation is pure, so this is the same
function. -/
def unionGo (name disc : String) (branches : List Schema) (u : Value) :
    Except VError Value :=
  match branches with
  | [] => .error (.invalidType name "union" u)
  | b :: rest =>
      match schemaKeys b with
      | .error e => .error e
      | .ok keys =>
          let ignored := jsSplice1 keys (jsIndexOf keys disc)
          match validate b u ignored with
          | .ok _ => validate b u []
          | .error _ => unionGo name disc rest u

end

/-- The element loop of `ListType.validate`, i.e. validating each element
of the array in order against the item schema, failing fast on the first
element failure. -/
def validateItems (item : Schema) (items : List Value) : Except VError (List Value) :=
  items.mapM (fun v => validate item v [])

mutual

/-- The `hasKey` methods: records test their own table, extensions test
their own table and then the base, unions require every branch to agree.
Scalar, optional and list nodes have no `hasKey`, so calling it there is a
`TypeError`. -/
def hasKey (s : Schema) (k : String) : Except VError Bool :=
  match s with
  | .srec _ fields => .ok (decide (k ∈ fields.map Prod.fst))
  | .sext _ base own =>
      if k ∈ own.map Prod.fst then .ok true else hasKey base k
  | .sunion _ _ branches => hasKeyAll branches k
  | _ => .error (.jsCrash "hasKey is not a function")

/-- `schemas.every(s => s.hasKey(key))`, short-circuiting on the first
branch that answers false. -/
def hasKeyAll (branches : List Schema) (k : String) : Except VError Bool :=
  match branches with
  | [] => .ok true
  | b :: rest => do
      let hb ← hasKey b k
      if hb then hasKeyAll rest k else .ok false

end

/-- The constructor-time loop of `UnionRecordType`: every branch must
report `hasKey(discriminator)`, otherwise construction throws the
missing-discriminator `Error` naming the offending subschema, the union and
the discriminator, before the union object ever becomes usable. -/
def checkBranches (uni disc : String) : List Schema → Except VError Unit
  | [] => .ok ()
  | b :: rest => do
      let hb ← hasKey b disc
      if hb then checkBranches uni disc rest
      else .error (.missingDiscriminator (schemaName b) uni disc)

/-- The `union` builder: runs the constructor check and only then yields a
usable union schema node. -/
def mkUnion (name disc : String) (branches : List Schema) : Except VError Schema := do
  checkBranches name disc branches
  pure (.sunion name disc branches)

/-- `TypeImpl.serialize`: validate, then hand the sanitized value to the
codec's `pack`.  The msgpackr codec is external to the repository and is
abstracted as a function into an arbitrary byte-buffer type. -/
def serialize {β : Type} (pack : Value → β) (s : Schema) (v : Value) :
    Except VError β :=
  (validate s v []).map pack

/-- `TypeImpl.deserialize`: run the codec's `unpack`, then validate. -/
def deserialize {β : Type} (unpack : β → Value) (s : Schema) (b : β) :
    Except VError Value :=
  validate s (unpack b) []

/-! ### Specification-side notions used by the claims -/

/-- Scalar schema nodes: their `validate` echoes the input unchanged. -/
def IsScalar : Schema → Prop
  | .sbool _ _ => True
  | .sstr _ _ => True
  | .snum _ _ => True
  | .sbytes _ => True
  | _ => False

/-- Record-like nodes in the sense of the union claims: the nodes carrying
an own-field table. -/
def RecOrExt : Schema → Prop
  | .srec _ _ => True
  | .sext _ _ _ => True
  | _ => False

/-- A branch's own field names (the `Object.keys(s.schema)` of the claims),
defined for the record-like nodes. -/
def ownFieldNames : Schema → Option (List String)
  | .srec _ fields => some (fields.map Prod.fst)
  | .sext _ _ own => some (own.map Prod.fst)
  | _ => none

def isOkE {α : Type} (e : Except VError α) : Bool :=
  match e with
  | .ok _ => true
  | .error _ => false

/-- The probe of claim C1, written from the claim's words: the branch's
`validate` applied to the value with the branch's own field names minus the
discriminator ignored; it succeeds iff the call does not fail. -/
def claimProbe (disc : String) (b : Schema) (u : Value) : Bool :=
  match ownFieldNames b with
  | some keys => isOkE (validate b u (keys.erase disc))
  | none => false

/-! ### Basic lemmas about the JS helpers -/

theorem objSet_of_not_mem {fields : List (String × Value)} {k : String} (v : Value)
    (h : k ∉ fields.map Prod.fst) : objSet fields k v = fields ++ [(k, v)] := by
  induction fields with
  | nil => simp [objSet]
  | cons p rest ih =>
      obtain ⟨k1, v1⟩ := p
      simp only [List.map_cons, List.mem_cons, not_or] at h
      simp [objSet, Ne.symm h.1, ih h.2]

theorem foldl_objSet_append {b : List (String × Value)} :
    ∀ (a : List (String × Value)), (∀ k ∈ b.map Prod.fst, k ∉ a.map Prod.fst) →
      (b.map Prod.fst).Nodup →
      b.foldl (fun acc kv => objSet acc kv.1 kv.2) a = a ++ b := by
  induction b with
  | nil => intro a _ _; simp
  | cons p rest ih =>
      intro a hdisj hnd
      obtain ⟨k, v⟩ := p
      simp only [List.map_cons, List.nodup_cons] at hnd
      have hka : k ∉ a.map Prod.fst := hdisj k (by simp)
      have step : objSet a k v = a ++ [(k, v)] := objSet_of_not_mem v hka
      simp only [List.foldl_cons, step]
      rw [ih (a ++ [(k, v)]) ?disj hnd.2]
      · simp
      case disj =>
        intro k2 hk2
        simp only [List.map_append, List.mem_append, List.map_cons, List.map_nil,
          List.mem_singleton, not_or]
        exact ⟨fun hmem => hdisj k2 (by simp [hk2]) hmem,
          fun heq => hnd.1 (heq ▸ hk2)⟩

/-- Object spread of two objects with disjoint, duplicate-free keys is list
append. -/
theorem objAssign_append {a b : List (String × Value)}
    (hdisj : ∀ k ∈ b.map Prod.fst, k ∉ a.map Prod.fst)
    (hnd : (b.map Prod.fst).Nodup) :
    objAssign (.vObj a) (.vObj b) = .vObj (a ++ b) := by
  simp [objAssign, foldl_objSet_append a hdisj hnd]

theorem jsIndexOf_nonneg {l : List String} {x : String} (h : x ∈ l) :
    0 ≤ jsIndexOf l x := by
  induction l with
  | nil => cases h
  | cons y rest ih =>
      by_cases hy : y = x
      · simp [jsIndexOf, hy]
      · have hmem : x ∈ rest := by
          rcases List.mem_cons.mp h with h1 | h1
          · exact absurd h1.symm hy
          · exact h1
        have := ih hmem
        simp only [jsIndexOf, hy, if_false]
        omega

theorem jsSplice1_indexOf_erase {keys : List String} {disc : String}
    (h : disc ∈ keys) : jsSplice1 keys (jsIndexOf keys disc) = keys.erase disc := by
  induction keys with
  | nil => cases h
  | cons k rest ih =>
      by_cases hk : k = disc
      · subst hk
        simp [jsIndexOf, jsSplice1, List.erase_cons_head]
      · have hmem : disc ∈ rest := by
          rcases List.mem_cons.mp h with h1 | h1
          · exact absurd h1.symm hk
          · exact h1
        have hrec := ih hmem
        have hnn := jsIndexOf_nonneg hmem
        have hidx : jsIndexOf (k :: rest) disc = jsIndexOf rest disc + 1 := by
          simp only [jsIndexOf, hk, if_false]
          omega
        rw [hidx, List.erase_cons_tail (by simp [hk])]
        simp only [jsSplice1] at hrec ⊢
        have h0 : ¬ (jsIndexOf rest disc + 1 < 0) := by omega
        have h1 : ¬ (jsIndexOf rest disc < 0) := by omega
        simp only [h0, h1, if_false] at hrec ⊢
        have h2 : (jsIndexOf rest disc + 1).toNat = (jsIndexOf rest disc).toNat + 1 := by
          omega
        rw [h2, List.take_succ_cons, List.drop_succ_cons, List.cons_append, hrec]

theorem lookup_of_mem_nodup {pairs : List (String × Value)} {k : String} {v : Value}
    (hnd : (pairs.map Prod.fst).Nodup) (hmem : (k, v) ∈ pairs) :
    pairs.lookup k = some v := by
  induction pairs with
  | nil => cases hmem
  | cons p rest ih =>
      obtain ⟨k1, v1⟩ := p
      simp only [List.map_cons, List.nodup_cons] at hnd
      rcases List.mem_cons.mp hmem with h1 | h1
      · injection h1 with hk hv
        subst hk; subst hv
        simp [List.lookup]
      · have hne : k1 ≠ k := by
          intro heq
          exact hnd.1 (heq ▸ (List.mem_map.mpr ⟨(k, v), h1, rfl⟩))
        simp only [List.lookup, show (k == k1) = false by simp [Ne.symm hne]]
        exact ih hnd.2 h1

theorem lookup_append_of_mem {a b : List (String × Value)} {k : String} {v : Value}
    (h : a.lookup k = some v) : (a ++ b).lookup k = some v := by
  induction a with
  | nil => simp [List.lookup_nil] at h
  | cons p rest ih =>
      obtain ⟨k1, v1⟩ := p
      by_cases hk : k = k1
      · subst hk
        simp_all [List.lookup]
      · simp only [List.cons_append, List.lookup,
          show (k == k1) = false by simp [hk]] at h ⊢
        exact ih h

theorem lookup_append_of_not_mem {a b : List (String × Value)} {k : String}
    (h : k ∉ a.map Prod.fst) : (a ++ b).lookup k = b.lookup k := by
  induction a with
  | nil => simp
  | cons p rest ih =>
      obtain ⟨k1, v1⟩ := p
      simp only [List.map_cons, List.mem_cons, not_or] at h
      simp only [List.cons_append, List.lookup,
        show (k == k1) = false by simp [h.1]]
      exact ih h.2

/-! ### Shape lemmas about `validate` -/

theorem ebind_ok {α β : Type} (a : α) (f : α → Except VError β) :
    (Except.ok a >>= f) = f a := rfl

theorem ebind_err {α β : Type} (e : VError) (f : α → Except VError β) :
    ((Except.error e : Except VError α) >>= f) = .error e := rfl

theorem epure_eq_ok {α : Type} (a : α) : (pure a : Except VError α) = .ok a := rfl

/-- `ExtendsType.validate` is declared with a single parameter: an
`ignoredKeys` argument passed by a caller is discarded. -/
theorem ext_validate_ign (name : String) (base : Schema) (own : List (String × Schema))
    (u : Value) (K : List String) :
    validate (.sext name base own) u K = validate (.sext name base own) u [] := by
  rw [validate, validate]

/-- `UnionRecordType.validate` likewise discards any `ignoredKeys`
argument. -/
theorem union_validate_ign (name disc : String) (branches : List Schema)
    (u : Value) (K : List String) :
    validate (.sunion name disc branches) u K = validate (.sunion name disc branches) u [] := by
  rw [validate, validate]

theorem rec_validate_eq (name : String) (fields : List (String × Schema))
    (u : Value) (ign : List String) :
    validate (.srec name fields) u ign =
      (if typeofV u ≠ "object" then .error (.invalidType name "object" u)
       else do
         let pairs ← validateFields fields u ign
         pure (Value.vObj pairs)) := by
  rw [validate]

/-- Unfolding of the extension case in terms of the synthetic record
subtype: the extension validates the base with its own keys ignored, then
the own-fields record with nothing ignored, and merges. -/
theorem ext_validate_eq (name : String) (base : Schema) (own : List (String × Schema))
    (u : Value) (K : List String) :
    validate (.sext name base own) u K =
      (do
        let baseResult ← validate base u (own.map Prod.fst)
        let schemaResult ← validate (.srec name own) u []
        pure (objAssign baseResult schemaResult)) := by
  rw [validate, validate]
  cases hb : validate base u (own.map Prod.fst) with
  | error e => rfl
  | ok rB =>
      simp only [ebind_ok]
      by_cases hc : typeofV u ≠ "object"
      · simp only [if_pos hc]
      · simp only [if_neg hc]
        cases hf : validateFields own u [] with
        | error e => rfl
        | ok pairs => rfl

theorem opt_validate_eq (base : Schema) (u : Value) (ign : List String) :
    validate (.sopt base) u ign =
      (match u with
       | .vNull => .ok .vUndefined
       | .vUndefined => .ok .vUndefined
       | _ => validate base u []) := by
  conv_lhs => rw [validate.eq_def]

theorem union_validate_eq (name disc : String) (branches : List Schema)
    (u : Value) (ign : List String) :
    validate (.sunion name disc branches) u ign = unionGo name disc branches u := by
  rw [validate]

theorem list_validate_eq (name : String) (item : Schema) (u : Value) (ign : List String) :
    validate (.slist name item) u ign =
      (match u with
       | .vArr items => do
           let r ← validateItems item items
           pure (Value.vArr r)
       | _ => .error (.invalidType name "array" u)) := by
  conv_lhs => rw [validate.eq_def]
  rfl

theorem rec_validate_ok {name : String} {fields : List (String × Schema)}
    {u : Value} {ign : List String} {r : Value}
    (h : validate (.srec name fields) u ign = .ok r) :
    typeofV u = "object" ∧ ∃ pairs, validateFields fields u ign = .ok pairs ∧ r = .vObj pairs := by
  rw [rec_validate_eq] at h
  split at h
  · cases h
  · refine ⟨by simpa using ‹¬ typeofV u ≠ "object"›, ?_⟩
    cases hf : validateFields fields u ign with
    | ok pairs =>
        rw [hf] at h
        exact ⟨pairs, rfl, by injection h with h1; exact h1.symm⟩
    | error e => rw [hf] at h; cases h

/-- Scalar validators echo their input value unchanged on success. -/
theorem scalar_echo {ds : Schema} (hs : IsScalar ds) {v : Value} {ig : List String}
    {w : Value} (h : validate ds v ig = .ok w) : w = v := by
  cases ds with
  | sbool name lit =>
      simp only [validate.eq_def] at h
      split at h
      · split at h
        · split at h
          · injection h with h1; exact h1.symm
          · cases h
        · injection h with h1; exact h1.symm
      · cases h
  | sstr name lits =>
      simp only [validate.eq_def] at h
      split at h
      · split at h
        · cases h
        · injection h with h1; exact h1.symm
      · cases h
  | snum name lits =>
      simp only [validate.eq_def] at h
      split at h
      · split at h
        · cases h
        · injection h with h1; exact h1.symm
      · cases h
  | sbytes name =>
      simp only [validate.eq_def] at h
      split at h
      · injection h with h1; exact h1.symm
      · cases h
  | sopt base => cases hs
  | srec name fields => cases hs
  | sext name base own => cases hs
  | sunion name disc branches => cases hs
  | slist name item => cases hs

theorem bind_ok_inv {α β : Type} {x : Except VError α} {f : α → Except VError β} {r : β}
    (h : (x >>= f) = .ok r) : ∃ a, x = .ok a ∧ f a = .ok r := by
  cases x with
  | error e => rw [ebind_err] at h; cases h
  | ok a => exact ⟨a, rfl, by rw [ebind_ok] at h; exact h⟩

theorem pure_ok_inv {α : Type} {a b : α} (h : (pure a : Except VError α) = .ok b) :
    a = b := by
  injection h

/-! ### Lemmas about the record field loop -/

/-- The keys of a successful record validation are exactly the non-ignored
schema keys, in declaration order. -/
theorem validateFields_keys {fields : List (String × Schema)} {u : Value}
    {ign : List String} {pairs : List (String × Value)}
    (h : validateFields fields u ign = .ok pairs) :
    pairs.map Prod.fst = (fields.map Prod.fst).filter (fun k => decide (k ∉ ign)) := by
  induction fields generalizing pairs with
  | nil =>
      rw [validateFields] at h
      injection h with h1
      subst h1
      simp
  | cons p rest ih =>
      obtain ⟨k, fs1⟩ := p
      rw [validateFields] at h
      by_cases hk : k ∈ ign
      · rw [if_pos hk] at h
        simp only [List.map_cons, List.filter_cons, show (decide (k ∉ ign)) = false by simp [hk]]
        exact ih h
      · rw [if_neg hk] at h
        obtain ⟨pv, hp, h⟩ := bind_ok_inv h
        obtain ⟨w, hv, h⟩ := bind_ok_inv h
        obtain ⟨restPairs, hr, h⟩ := bind_ok_inv h
        have h1 := pure_ok_inv h
        subst h1
        simp only [List.map_cons, List.filter_cons, show (decide (k ∉ ign)) = true by simp [hk]]
        rw [ih hr]
        simp

/-- When every field key is ignored, the loop validates nothing. -/
theorem validateFields_skip_all {fields : List (String × Schema)} {u : Value}
    {ign : List String} (h : ∀ p ∈ fields, p.1 ∈ ign) :
    validateFields fields u ign = .ok [] := by
  induction fields with
  | nil => rw [validateFields]
  | cons p rest ih =>
      obtain ⟨k, fs1⟩ := p
      rw [validateFields, if_pos (h (k, fs1) (by simp))]
      exact ih (fun q hq => h q (List.mem_cons_of_mem _ hq))

/-- Inversion of one processed field: a successful run of the loop yields,
for every non-ignored schema field, a successful property read, a
successful field validation, and the validated value stored under that key
(first occurrence, for duplicate-free key lists). -/
theorem validateFields_lookup {fields : List (String × Schema)} {u : Value}
    {ign : List String} {pairs : List (String × Value)}
    (hn : (fields.map Prod.fst).Nodup)
    (h : validateFields fields u ign = .ok pairs)
    {k : String} {fsch : Schema} (hf : fields.lookup k = some fsch) (hk : k ∉ ign) :
    ∃ pv w, getProp u k = .ok pv ∧ validate fsch pv [] = .ok w ∧
      pairs.lookup k = some w := by
  induction fields generalizing pairs with
  | nil => rw [List.lookup_nil] at hf; cases hf
  | cons p rest ih =>
      obtain ⟨k1, fs1⟩ := p
      simp only [List.map_cons, List.nodup_cons] at hn
      rw [validateFields] at h
      by_cases hk1 : k = k1
      · subst hk1
        simp only [List.lookup, beq_self_eq_true] at hf
        injection hf with hf1
        subst hf1
        rw [if_neg hk] at h
        obtain ⟨pv, hp, h⟩ := bind_ok_inv h
        obtain ⟨w, hv, h⟩ := bind_ok_inv h
        obtain ⟨restPairs, hr, h⟩ := bind_ok_inv h
        have h1 := pure_ok_inv h
        subst h1
        exact ⟨pv, w, hp, hv, by simp [List.lookup]⟩
      · have hf2 : rest.lookup k = some fsch := by
          simpa only [List.lookup, show (k == k1) = false by simp [hk1]] using hf
        by_cases hmem : k1 ∈ ign
        · rw [if_pos hmem] at h
          exact ih hn.2 h hf2
        · rw [if_neg hmem] at h
          obtain ⟨pv, hp, h⟩ := bind_ok_inv h
          obtain ⟨w, hv, h⟩ := bind_ok_inv h
          obtain ⟨restPairs, hr, h⟩ := bind_ok_inv h
          have h1 := pure_ok_inv h
          subst h1
          obtain ⟨pv2, w2, hp2, hv2, hl2⟩ := ih hn.2 hr hf2
          exact ⟨pv2, w2, hp2, hv2, by
            simpa only [List.lookup, show (k == k1) = false by simp [hk1]] using hl2⟩

/-- Re-running the field loop over an object that stores, for every
processed field, a value its validator maps to itself, reproduces the same
pairs.  The per-field idempotence is supplied as a premise. -/
theorem validateFields_self {fields : List (String × Schema)} {u : Value}
    {ign : List String} {pairs : List (String × Value)}
    (hIH : ∀ p ∈ fields, ∀ v w, validate p.2 v [] = .ok w → validate p.2 w [] = .ok w)
    (h : validateFields fields u ign = .ok pairs)
    {big : List (String × Value)}
    (hlook : ∀ k v, (k, v) ∈ pairs → big.lookup k = some v) :
    validateFields fields (.vObj big) ign = .ok pairs := by
  induction fields generalizing pairs with
  | nil =>
      rw [validateFields] at h ⊢
      exact h
  | cons p rest ih =>
      obtain ⟨k, fs1⟩ := p
      rw [validateFields] at h ⊢
      by_cases hk : k ∈ ign
      · rw [if_pos hk] at h ⊢
        exact ih (fun q hq => hIH q (List.mem_cons_of_mem _ hq)) h hlook
      · rw [if_neg hk] at h ⊢
        obtain ⟨pv, hp, h⟩ := bind_ok_inv h
        obtain ⟨w, hv, h⟩ := bind_ok_inv h
        obtain ⟨restPairs, hr, h⟩ := bind_ok_inv h
        have h1 := pure_ok_inv h
        subst h1
        have hgp : getProp (.vObj big) k = .ok w := by
          rw [getProp, hlook k w (by simp)]
        rw [hgp, ebind_ok]
        have hw : validate fs1 w [] = .ok w :=
          hIH (k, fs1) (by simp) pv w hv
        rw [hw, ebind_ok]
        rw [ih (fun q hq => hIH q (List.mem_cons_of_mem _ hq)) hr
          (fun k2 v2 hm => hlook k2 v2 (List.mem_cons_of_mem _ hm)), ebind_ok]
        rfl

theorem mem_keys_of_lookup {β : Type} {l : List (String × β)} {k : String} {v : β}
    (h : l.lookup k = some v) : k ∈ l.map Prod.fst := by
  induction l with
  | nil => rw [List.lookup_nil] at h; cases h
  | cons p rest ih =>
      obtain ⟨k1, v1⟩ := p
      by_cases hk : k = k1
      · subst hk; simp
      · simp only [List.lookup, show (k == k1) = false by simp [hk]] at h
        exact List.mem_cons_of_mem _ (ih h)

/-- A probe run of the field loop — every own key ignored except the
discriminator — validates exactly the discriminator field. -/
theorem validateFields_only_disc {fields : List (String × Schema)} {u : Value}
    {ign : List String} {disc : String} {ds : Schema}
    (hmem : ∀ p ∈ fields, p.1 ≠ disc → p.1 ∈ ign)
    (hdisc : disc ∉ ign)
    (hds : fields.lookup disc = some ds)
    (hn : (fields.map Prod.fst).Nodup) :
    validateFields fields u ign =
      (do
        let pv ← getProp u disc
        let w ← validate ds pv []
        pure [(disc, w)]) := by
  induction fields with
  | nil => rw [List.lookup_nil] at hds; cases hds
  | cons p rest ih =>
      obtain ⟨k, fs1⟩ := p
      simp only [List.map_cons, List.nodup_cons] at hn
      by_cases hk : k = disc
      · subst hk
        simp only [List.lookup, beq_self_eq_true] at hds
        injection hds with hds1
        subst hds1
        rw [validateFields, if_neg hdisc]
        have hrest : validateFields rest u ign = .ok [] := by
          apply validateFields_skip_all
          intro q hq
          apply hmem q (List.mem_cons_of_mem _ hq)
          intro heq
          exact hn.1 (heq ▸ List.mem_map.mpr ⟨q, hq, rfl⟩)
        cases hp : getProp u k with
        | error e => rfl
        | ok pv =>
            simp only [ebind_ok]
            cases hv : validate fs1 pv [] with
            | error e => rfl
            | ok w => simp only [ebind_ok]; rw [hrest]; rfl
      · have hkin : k ∈ ign := hmem (k, fs1) (by simp) hk
        rw [validateFields, if_pos hkin]
        refine ih (fun q hq h2 => hmem q (List.mem_cons_of_mem _ hq) h2) ?_ hn.2
        simpa only [List.lookup, show (disc == k) = false by simp [Ne.symm hk]] using hds

/-- Evaluation of the union probe against a well-formed record branch: it
reduces to the shape check plus the validation of the discriminator field
alone. -/
theorem probe_eval {bn : String} {bf : List (String × Schema)} {disc : String}
    {ds : Schema} (hn : (bf.map Prod.fst).Nodup) (hds : bf.lookup disc = some ds)
    (x : Value) :
    validate (.srec bn bf) x ((bf.map Prod.fst).erase disc) =
      (if typeofV x ≠ "object" then .error (.invalidType bn "object" x)
       else do
         let pv ← getProp x disc
         let w ← validate ds pv []
         pure (Value.vObj [(disc, w)])) := by
  rw [rec_validate_eq]
  by_cases hc : typeofV x ≠ "object"
  · rw [if_pos hc, if_pos hc]
  · rw [if_neg hc, if_neg hc]
    have honly := @validateFields_only_disc bf x ((bf.map Prod.fst).erase disc)
      disc ds ?hmem ?hdisc hds hn
    · rw [honly]
      cases hp : getProp x disc with
      | error e => rfl
      | ok pv =>
          simp only [ebind_ok]
          cases hv : validate ds pv [] with
          | error e => rfl
          | ok w => rfl
    case hmem =>
      intro p hp hne
      exact (List.Nodup.mem_erase_iff hn).mpr ⟨hne, List.mem_map.mpr ⟨p, hp, rfl⟩⟩
    case hdisc =>
      intro hmem
      exact ((List.Nodup.mem_erase_iff hn).mp hmem).1 rfl

/-- Re-running the element loop over already-validated elements reproduces
them, given idempotence of the item validator. -/
theorem validateItems_self {item : Schema} {items : List Value} {rs : List Value}
    (hIH : ∀ v w, validate item v [] = .ok w → validate item w [] = .ok w)
    (h : validateItems item items = .ok rs) :
    validateItems item rs = .ok rs := by
  induction items generalizing rs with
  | nil =>
      rw [validateItems, List.mapM_nil] at h
      have h1 := pure_ok_inv h
      subst h1
      rw [validateItems, List.mapM_nil]
      rfl
  | cons v rest ih =>
      rw [validateItems, List.mapM_cons] at h
      obtain ⟨w, hv, h⟩ := bind_ok_inv h
      obtain ⟨ws, hrest, h⟩ := bind_ok_inv h
      have h1 := pure_ok_inv h
      subst h1
      rw [validateItems, List.mapM_cons, hIH v w hv, ebind_ok,
        show ws.mapM (fun v2 => validate item v2 []) = .ok ws from ih hrest, ebind_ok]
      rfl

/-! ### The well-formedness class for the amended idempotence claim -/

/-- A union branch as used in the amended idempotence claim: a plain record
branch whose discriminator field is validated by a scalar. -/
def BranchOK (disc : String) (b : Schema) : Prop :=
  ∃ bn bf ds, b = .srec bn bf ∧ bf.lookup disc = some ds ∧ IsScalar ds

/-- Schemas for which validation is idempotent: every record field table is
duplicate-free (as every JS object literal is), every extension extends a
plain record, and every union has plain record branches whose discriminator
fields carry scalar validators — the shape of every example in the
repository's documentation and tests. -/
inductive Good : Schema → Prop where
  | gbool (name : String) (lit : Option Bool) : Good (.sbool name lit)
  | gstr (name : String) (lits : List String) : Good (.sstr name lits)
  | gnum (name : String) (lits : List JsNum) : Good (.snum name lits)
  | gbytes (name : String) : Good (.sbytes name)
  | gopt (base : Schema) : Good base → Good (.sopt base)
  | grec (name : String) (fields : List (String × Schema)) :
      (fields.map Prod.fst).Nodup → (∀ p ∈ fields, Good p.2) →
      Good (.srec name fields)
  | gext (name bn : String) (bf own : List (String × Schema)) :
      (bf.map Prod.fst).Nodup → (∀ p ∈ bf, Good p.2) →
      (own.map Prod.fst).Nodup → (∀ p ∈ own, Good p.2) →
      Good (.sext name (.srec bn bf) own)
  | gunion (name disc : String) (branches : List Schema) :
      (∀ b ∈ branches, Good b) → (∀ b ∈ branches, BranchOK disc b) →
      Good (.sunion name disc branches)
  | glist (name : String) (item : Schema) : Good item → Good (.slist name item)

theorem good_rec_nodup {name : String} {fields : List (String × Schema)}
    (h : Good (.srec name fields)) : (fields.map Prod.fst).Nodup := by
  cases h with
  | grec _ _ hnd _ => exact hnd

/-- Union resolution is stable under re-validation for well-formed unions:
the probes of `r := U.validate(u)` resolve to the same branch as the probes
of `u`, because a record branch's probe only looks at the shape of the
value and its discriminator property, both of which re-validation
preserves when the discriminator validator is a scalar. -/
theorem unionGo_idem {name disc : String} {u r : Value} :
    ∀ branches : List Schema,
      (∀ b ∈ branches, Good b) → (∀ b ∈ branches, BranchOK disc b) →
      (∀ b ∈ branches, ∀ v ig w, validate b v ig = .ok w →
        validate b w ig = .ok w ∧ w ≠ .vNull) →
      unionGo name disc branches u = .ok r →
      unionGo name disc branches r = .ok r ∧ r ≠ .vNull ∧ typeofV r = "object" ∧
        typeofV u = "object" ∧ ∃ pv, getProp u disc = .ok pv ∧ getProp r disc = .ok pv := by
  intro branches
  induction branches with
  | nil =>
      intro _ _ _ h
      rw [unionGo] at h
      cases h
  | cons b rest ih =>
      intro hgall hball hidem h
      obtain ⟨bn, bf, ds, hb, hds, hsc⟩ := hball b (by simp)
      subst hb
      have hnd : (bf.map Prod.fst).Nodup := good_rec_nodup (hgall (.srec bn bf) (by simp))
      have hdm : disc ∈ bf.map Prod.fst := mem_keys_of_lookup hds
      have hsp : jsSplice1 (bf.map Prod.fst) (jsIndexOf (bf.map Prod.fst) disc)
          = (bf.map Prod.fst).erase disc := jsSplice1_indexOf_erase hdm
      have ihr := ih (fun b2 hb2 => hgall b2 (List.mem_cons_of_mem _ hb2))
        (fun b2 hb2 => hball b2 (List.mem_cons_of_mem _ hb2))
        (fun b2 hb2 => hidem b2 (List.mem_cons_of_mem _ hb2))
      simp only [unionGo, schemaKeys] at h
      rw [hsp, probe_eval hnd hds u] at h
      by_cases htu : typeofV u ≠ "object"
      · rw [if_pos htu] at h
        obtain ⟨-, -, -, htu2, -⟩ := ihr h
        exact absurd htu2 htu
      · have htu2 : typeofV u = "object" := by simpa using htu
        rw [if_neg htu] at h
        cases hgp : getProp u disc with
        | error e =>
            rw [hgp, ebind_err] at h
            obtain ⟨-, -, -, -, pv2, hgu2, -⟩ := ihr h
            rw [hgp] at hgu2
            cases hgu2
        | ok pv =>
            rw [hgp, ebind_ok] at h
            cases hds2 : validate ds pv [] with
            | error e =>
                rw [hds2, ebind_err] at h
                obtain ⟨hrev, hnn, htr, -, pv2, hgu2, hgr2⟩ := ihr h
                rw [hgp] at hgu2
                injection hgu2 with hpv
                rw [← hpv] at hgr2
                refine ⟨?_, hnn, htr, htu2, pv, rfl, hgr2⟩
                simp only [unionGo, schemaKeys]
                rw [hsp, probe_eval hnd hds r, if_neg (by rw [htr]; simp),
                  hgr2, ebind_ok, hds2, ebind_err]
                exact hrev
            | ok w =>
                rw [hds2, ebind_ok, epure_eq_ok] at h
                -- the probe succeeded: the branch is selected and fully
                -- re-validated
                obtain ⟨hrev, hnn⟩ := hidem (.srec bn bf) (by simp) u [] r h
                obtain ⟨-, pairs, hfs, hrp⟩ := rec_validate_ok h
                subst hrp
                obtain ⟨pv0, w0, hgp0, hv0, hlw0⟩ :=
                  validateFields_lookup hnd hfs hds (List.not_mem_nil disc)
                rw [hgp] at hgp0
                injection hgp0 with hpv
                rw [← hpv] at hv0
                have hw0 : w0 = pv := scalar_echo hsc hv0
                have hgr : getProp (Value.vObj pairs) disc = .ok w0 := by
                  rw [getProp, hlw0]
                rw [hw0] at hgr
                refine ⟨?_, hnn, rfl, htu2, pv, rfl, hgr⟩
                simp only [unionGo, schemaKeys]
                rw [hsp, probe_eval hnd hds (Value.vObj pairs),
                  if_neg (by simp [typeofV]), hgr, ebind_ok, hv0, ebind_ok,
                  epure_eq_ok]
                exact hrev

theorem scalar_idem {ds : Schema} (hs : IsScalar ds) {v : Value} {ig : List String}
    {r : Value} (h : validate ds v ig = .ok r) :
    validate ds r ig = .ok r ∧ r ≠ .vNull := by
  have hr := scalar_echo hs h
  subst hr
  refine ⟨h, ?_⟩
  intro heq
  rw [heq] at h
  cases ds with
  | sbool a b => simp [validate.eq_def] at h
  | sstr a b => simp [validate.eq_def] at h
  | snum a b => simp [validate.eq_def] at h
  | sbytes a => simp [validate.eq_def] at h
  | sopt a => cases hs
  | srec a b => cases hs
  | sext a b c => cases hs
  | sunion a b c => cases hs
  | slist a b => cases hs

/-- The main idempotence induction: over the class `Good`, a successful
validation re-validates to itself (and never produces `null`, which the
optional wrapper needs). -/
theorem good_idem {s : Schema} (hg : Good s) :
    ∀ u ign r, validate s u ign = .ok r → validate s r ign = .ok r ∧ r ≠ .vNull := by
  induction hg with
  | gbool name lit => exact fun u ign r h => scalar_idem (by trivial) h
  | gstr name lits => exact fun u ign r h => scalar_idem (by trivial) h
  | gnum name lits => exact fun u ign r h => scalar_idem (by trivial) h
  | gbytes name => exact fun u ign r h => scalar_idem (by trivial) h
  | gopt base hb ih =>
      intro u ign r h
      rw [opt_validate_eq] at h
      split at h
      · injection h with h1
        subst h1
        refine ⟨by rw [opt_validate_eq], ?_⟩
        intro hc; cases hc
      · injection h with h1
        subst h1
        refine ⟨by rw [opt_validate_eq], ?_⟩
        intro hc; cases hc
      · obtain ⟨hrev, hnn⟩ := ih u [] r h
        refine ⟨?_, hnn⟩
        rw [opt_validate_eq]
        cases r with
        | vNull => exact absurd rfl hnn
        | vUndefined => rfl
        | vBool b => exact hrev
        | vStr s1 => exact hrev
        | vNum n => exact hrev
        | vBytes bs => exact hrev
        | vArr items => exact hrev
        | vObj fields => exact hrev
  | grec name fields hnd hgood ih =>
      intro u ign r h
      obtain ⟨hto, pairs, hf, hr⟩ := rec_validate_ok h
      subst hr
      have hndp : (pairs.map Prod.fst).Nodup := by
        rw [validateFields_keys hf]
        exact hnd.filter _
      have hself := validateFields_self
        (fun p hp v w hv => (ih p hp v [] w hv).1) hf
        (fun k v hm => lookup_of_mem_nodup hndp hm)
      refine ⟨?_, by intro hc; cases hc⟩
      rw [rec_validate_eq, if_neg (by simp [typeofV]), hself, ebind_ok]
      rfl
  | gext name bn bf own hbnd hbg hond hog ihbf ihow =>
      intro u ign r h
      rw [ext_validate_eq] at h
      obtain ⟨rB, hB, h⟩ := bind_ok_inv h
      obtain ⟨rS, hS, h⟩ := bind_ok_inv h
      have hr := pure_ok_inv h
      obtain ⟨htu, bPairs, hbf2, hrB⟩ := rec_validate_ok hB
      subst hrB
      obtain ⟨-, oPairs, hof2, hrS⟩ := rec_validate_ok hS
      subst hrS
      have hkb := validateFields_keys hbf2
      have hko := validateFields_keys hof2
      have hko2 : oPairs.map Prod.fst = own.map Prod.fst := by
        rw [hko]
        apply List.filter_eq_self.mpr
        intro a _
        simp
      have hdisj : ∀ k ∈ oPairs.map Prod.fst, k ∉ bPairs.map Prod.fst := by
        rw [hko2, hkb]
        intro k hk hmem
        have hfil := List.of_mem_filter hmem
        simp only [decide_eq_true_eq] at hfil
        exact hfil hk
      have hndo : (oPairs.map Prod.fst).Nodup := by rw [hko2]; exact hond
      have hndb : (bPairs.map Prod.fst).Nodup := by rw [hkb]; exact hbnd.filter _
      have hassign := objAssign_append hdisj hndo
      rw [hassign] at hr
      subst hr
      refine ⟨?_, by intro hc; cases hc⟩
      rw [ext_validate_eq]
      have hbself : validateFields bf (.vObj (bPairs ++ oPairs)) (own.map Prod.fst)
          = .ok bPairs := by
        apply validateFields_self (fun p hp v w hv => (ihbf p hp v [] w hv).1) hbf2
        intro k v hm
        exact lookup_append_of_mem (lookup_of_mem_nodup hndb hm)
      have hoself : validateFields own (.vObj (bPairs ++ oPairs)) [] = .ok oPairs := by
        apply validateFields_self (fun p hp v w hv => (ihow p hp v [] w hv).1) hof2
        intro k v hm
        rw [lookup_append_of_not_mem]
        · exact lookup_of_mem_nodup hndo hm
        · exact hdisj k (List.mem_map.mpr ⟨(k, v), hm, rfl⟩)
      rw [rec_validate_eq, if_neg (by simp [typeofV]), hbself]
      rw [rec_validate_eq, if_neg (by simp [typeofV]), hoself]
      simp only [ebind_ok, epure_eq_ok]
      rw [hassign]
  | gunion name disc branches hgb hbok ihb =>
      intro u ign r h
      rw [union_validate_eq] at h
      obtain ⟨hrev, hnn, -, -, -⟩ := unionGo_idem branches hgb hbok ihb h
      exact ⟨by rw [union_validate_eq]; exact hrev, hnn⟩
  | glist name item hi ih =>
      intro u ign r h
      rw [list_validate_eq] at h
      split at h
      · obtain ⟨rs, hrs, h⟩ := bind_ok_inv h
        have h1 := pure_ok_inv h
        subst h1
        refine ⟨?_, by intro hc; cases hc⟩
        rw [list_validate_eq]
        have hself := validateItems_self (fun v w hv => (ih v [] w hv).1) hrs
        show (do
          let r ← validateItems item rs
          pure (Value.vArr r)) = .ok (.vArr rs)
        rw [hself, ebind_ok]
        rfl
      · cases h

/-! ### Lemmas about union construction and branch search -/

theorem checkBranches_ok {uni disc : String} :
    ∀ {branches : List Schema}, checkBranches uni disc branches = .ok () →
      ∀ b ∈ branches, hasKey b disc = .ok true := by
  intro branches
  induction branches with
  | nil => intro _ b hb; cases hb
  | cons b rest ih =>
      intro h b2 hb2
      rw [checkBranches] at h
      obtain ⟨hb, hhb, h⟩ := bind_ok_inv h
      cases hb with
      | true =>
          rw [if_pos rfl] at h
          rcases List.mem_cons.mp hb2 with h1 | h1
          · subst h1; exact hhb
          · exact ih h b2 h1
      | false => rw [if_neg (by simp)] at h; cases h

theorem mkUnion_ok_inv {name disc : String} {branches : List Schema} {s : Schema}
    (h : mkUnion name disc branches = .ok s) :
    checkBranches name disc branches = .ok () ∧ s = .sunion name disc branches := by
  rw [mkUnion] at h
  obtain ⟨a, ha, h⟩ := bind_ok_inv h
  obtain ⟨⟩ := a
  exact ⟨ha, (pure_ok_inv h).symm⟩

theorem checkBranches_first_err {uni disc : String} {b : Schema} :
    ∀ (pre : List Schema) (post : List Schema),
      (∀ b2 ∈ pre, hasKey b2 disc = .ok true) →
      hasKey b disc = .ok false →
      checkBranches uni disc (pre ++ b :: post) =
        .error (.missingDiscriminator (schemaName b) uni disc) := by
  intro pre
  induction pre with
  | nil =>
      intro post _ hb
      rw [List.nil_append, checkBranches, hb, ebind_ok, if_neg (by simp)]
  | cons p rest ih =>
      intro post hpre hb
      rw [List.cons_append, checkBranches, hpre p (by simp), ebind_ok, if_pos rfl]
      exact ih post (fun b2 hb2 => hpre b2 (List.mem_cons_of_mem _ hb2)) hb

theorem checkBranches_ok_iff (uni disc : String) :
    ∀ (branches : List Schema),
      (∀ b ∈ branches, ∃ hb, hasKey b disc = .ok hb) →
      (checkBranches uni disc branches = .ok () ↔
        ∀ b ∈ branches, hasKey b disc = .ok true) := by
  intro branches
  induction branches with
  | nil => intro _; simp [checkBranches]
  | cons b rest ih =>
      intro hdef
      obtain ⟨hb, hhb⟩ := hdef b (by simp)
      rw [checkBranches, hhb, ebind_ok]
      cases hb with
      | true =>
          rw [if_pos rfl, ih (fun b2 hb2 => hdef b2 (List.mem_cons_of_mem _ hb2))]
          constructor
          · intro hall b2 hb2
            rcases List.mem_cons.mp hb2 with h1 | h1
            · subst h1; exact hhb
            · exact hall b2 h1
          · intro hall b2 hb2
            exact hall b2 (List.mem_cons_of_mem _ hb2)
      | false =>
          rw [if_neg (by simp)]
          constructor
          · intro hc; cases hc
          · intro hall
            have := hall b (by simp)
            rw [hhb] at this
            injection this with hfalse
            cases hfalse

/-- The union search, expressed through the claim's probe: the first branch
(in declaration order) whose probe succeeds is selected and fully
re-validated; with no match the union-level error is produced. -/
theorem unionGo_eq_find {name disc : String} :
    ∀ (branches : List Schema), (∀ b ∈ branches, RecOrExt b) →
      (∀ b ∈ branches, hasKey b disc = .ok true) →
      ∀ u, unionGo name disc branches u =
        (match branches.find? (fun b => claimProbe disc b u) with
         | some b => validate b u []
         | none => .error (.invalidType name "union" u)) := by
  intro branches
  induction branches with
  | nil => intro _ _ u; rw [unionGo]; rfl
  | cons b rest ih =>
      intro hre hkey u
      have ihr := ih (fun b2 h2 => hre b2 (List.mem_cons_of_mem _ h2))
        (fun b2 h2 => hkey b2 (List.mem_cons_of_mem _ h2)) u
      cases b with
      | srec bn bf =>
          have hdm : disc ∈ bf.map Prod.fst := by
            have := hkey (.srec bn bf) (by simp)
            rw [hasKey] at this
            injection this with h1
            exact of_decide_eq_true h1
          have hsp : jsSplice1 (bf.map Prod.fst) (jsIndexOf (bf.map Prod.fst) disc)
              = (bf.map Prod.fst).erase disc := jsSplice1_indexOf_erase hdm
          simp only [unionGo, schemaKeys]
          rw [hsp]
          have hprobe : claimProbe disc (.srec bn bf) u =
              isOkE (validate (.srec bn bf) u ((bf.map Prod.fst).erase disc)) := by
            rw [claimProbe, ownFieldNames]
          cases hpv : validate (.srec bn bf) u ((bf.map Prod.fst).erase disc) with
          | ok w =>
              have hcp : claimProbe disc (.srec bn bf) u = true := by
                rw [hprobe, hpv]; rfl
              rw [List.find?_cons, hcp]
          | error e =>
              have hcp : claimProbe disc (.srec bn bf) u = false := by
                rw [hprobe, hpv]; rfl
              rw [List.find?_cons, hcp]
              exact ihr
      | sext bn bb bo =>
          simp only [unionGo, schemaKeys]
          have hign : validate (.sext bn bb bo) u
                (jsSplice1 (bo.map Prod.fst) (jsIndexOf (bo.map Prod.fst) disc))
              = validate (.sext bn bb bo) u [] := ext_validate_ign ..
          rw [hign]
          have hprobe : claimProbe disc (.sext bn bb bo) u =
              isOkE (validate (.sext bn bb bo) u []) := by
            show isOkE (validate (.sext bn bb bo) u ((bo.map Prod.fst).erase disc))
              = isOkE (validate (.sext bn bb bo) u [])
            rw [ext_validate_ign]
          cases hpv : validate (.sext bn bb bo) u [] with
          | ok w =>
              have hcp : claimProbe disc (.sext bn bb bo) u = true := by
                rw [hprobe, hpv]; rfl
              rw [List.find?_cons, hcp]
              exact hpv.symm
          | error e =>
              have hcp : claimProbe disc (.sext bn bb bo) u = false := by
                rw [hprobe, hpv]; rfl
              rw [List.find?_cons, hcp]
              exact ihr
      | sbool a c => exact absurd (hre (.sbool a c) (by simp)) (by intro hc; cases hc)
      | sstr a c => exact absurd (hre (.sstr a c) (by simp)) (by intro hc; cases hc)
      | snum a c => exact absurd (hre (.snum a c) (by simp)) (by intro hc; cases hc)
      | sbytes a => exact absurd (hre (.sbytes a) (by simp)) (by intro hc; cases hc)
      | sopt a => exact absurd (hre (.sopt a) (by simp)) (by intro hc; cases hc)
      | sunion a c d => exact absurd (hre (.sunion a c d) (by simp)) (by intro hc; cases hc)
      | slist a c => exact absurd (hre (.slist a c) (by simp)) (by intro hc; cases hc)

/-- Any successful union validation is the full validation of one of its
branches. -/
theorem unionGo_ok_branch {name disc : String} {u r : Value} :
    ∀ (branches : List Schema), unionGo name disc branches u = .ok r →
      ∃ b ∈ branches, validate b u [] = .ok r := by
  intro branches
  induction branches with
  | nil => intro h; rw [unionGo] at h; cases h
  | cons b rest ih =>
      intro h
      rw [unionGo] at h
      split at h
      · cases h
      · dsimp only [] at h
        split at h
        · exact ⟨b, by simp, h⟩
        · obtain ⟨b2, hb2, h2⟩ := ih h
          exact ⟨b2, List.mem_cons_of_mem _ hb2, h2⟩

/-! ### Number equality helpers for claim C9 -/

theorem strictEqNum_self {n : JsNum} (h : n ≠ .nan) : strictEqNum n n = true := by
  cases n with
  | nan => exact absurd rfl h
  | inf p => simp [strictEqNum]
  | fin q => simp [strictEqNum]

theorem eq_of_strictEqNum {m n : JsNum} (h : strictEqNum m n = true) : m = n := by
  cases m <;> cases n <;> simp_all [strictEqNum]

/-! ### Claim theorems -/

/-- C10: an extension schema's validate is insensitive to the
`ignoredFieldNames` argument — `E.validate(v, K)` equals `E.validate(v)`
for every ignored-name set `K`, because `ExtendsType.validate` declares a
single parameter and discards the rest; consequently a union's probe of an
extension branch is a full validation with nothing actually ignored. -/
theorem claim_C10_ext_ignores_argument :
    ∀ (name : String) (base : Schema) (own : List (String × Schema)) (u : Value)
      (K : List String) (disc : String),
      validate (.sext name base own) u K = validate (.sext name base own) u [] ∧
      claimProbe disc (.sext name base own) u =
        isOkE (validate (.sext name base own) u []) := by
  intro name base own u K disc
  refine ⟨ext_validate_ign .., ?_⟩
  show isOkE (validate (.sext name base own) u ((own.map Prod.fst).erase disc))
      = isOkE (validate (.sext name base own) u [])
  rw [ext_validate_ign]

/-- C2: the record shape check is `typeof u !== 'object'`, and in JS both
`typeof null` and `typeof` of an array are `'object'`; therefore validating
`null` against a record with a field crashes with an unstructured
`TypeError` from the property read on `null` (not the structured
`InvalidTypeError` naming the record), and `null` or an array validated
against an empty record are accepted rather than rejected. -/
theorem claim_C2_typeof_null_bug :
    validate (.srec "R" [("a", .snum "a" [])]) .vNull []
        = .error (.jsCrash "cannot read properties of null") ∧
    validate (.srec "R" [("a", .snum "a" [])]) .vNull []
        ≠ .error (.invalidType "R" "object" .vNull) ∧
    validate (.srec "R" []) .vNull [] = .ok (.vObj []) ∧
    validate (.srec "R" []) (.vArr []) [] = .ok (.vObj []) := by
  refine ⟨rfl, ?_, rfl, rfl⟩
  intro h
  injection h with h1
  cases h1

/-- C9 counterexample: the number literal-set membership is decided by
`Array.prototype.includes`, whose SameValueZero comparison treats NaN as
equal to itself, so `num('x', NaN).validate(NaN)` succeeds even though the
exact `===` comparison named by the claim treats NaN as unequal to
itself. -/
theorem claim_C9_counterexample :
    validate (.snum "x" [.nan]) (.vNum .nan) [] = .ok (.vNum .nan) ∧
    strictEqNum .nan .nan = false := ⟨rfl, rfl⟩

/-- C9 amended: for a `num` schema with a non-empty literal set, `validate`
returns the number exactly when the SameValueZero membership test
(`Array.includes`) finds it in the set and fails with the literal-mismatch
error otherwise; for non-NaN numbers this membership agrees with exact
`===` equality, while `NaN` is accepted whenever `NaN` is a member. -/
theorem claim_C9_literalset_amended :
    ∀ (name : String) (lits : List JsNum) (n : JsNum), 0 < lits.length →
      (validate (.snum name lits) (.vNum n) [] =
        (if n ∈ lits then .ok (.vNum n)
         else .error (.literalMismatch name (.vNum n)))) ∧
      (n ≠ .nan → ((n ∈ lits) ↔ ∃ m ∈ lits, strictEqNum m n = true)) := by
  intro name lits n hlen
  constructor
  · rw [validate]
    by_cases hm : n ∈ lits
    · rw [if_neg (by simp [hm]), if_pos hm]
    · rw [if_pos ⟨hlen, hm⟩, if_neg hm]
  · intro hn
    constructor
    · intro hm
      exact ⟨n, hm, strictEqNum_self hn⟩
    · rintro ⟨m, hm, he⟩
      rw [← eq_of_strictEqNum he]
      exact hm

/-- C9 witness: instantiation of the amended claim at the set of literals
1 and 2 and the number 2. -/
theorem claim_C9_witness :
    (validate (.snum "n" [.fin 1, .fin 2]) (.vNum (.fin 2)) [] =
      (if (JsNum.fin 2) ∈ [JsNum.fin 1, JsNum.fin 2] then .ok (.vNum (.fin 2))
       else .error (.literalMismatch "n" (.vNum (.fin 2))))) ∧
    ((JsNum.fin 2) ≠ .nan →
      (((JsNum.fin 2) ∈ [JsNum.fin 1, JsNum.fin 2]) ↔
        ∃ m ∈ [JsNum.fin 1, JsNum.fin 2], strictEqNum m (.fin 2) = true)) :=
  claim_C9_literalset_amended "n" [.fin 1, .fin 2] (.fin 2) (by decide)

/-- C3: an extension validates the base schema with its own field names
ignored, validates a record built from its own fields with nothing ignored,
merges base-then-own on success, and aborts with the failure of either
validation; in particular overriding a base field with a different type
succeeds on the extension while the base alone rejects the same payload. -/
theorem claim_C3_extend_semantics :
    (∀ (name : String) (base : Schema) (own : List (String × Schema)) (u : Value)
        (K : List String) (e : VError),
        validate base u (own.map Prod.fst) = .error e →
        validate (.sext name base own) u K = .error e) ∧
    (∀ (name : String) (base : Schema) (own : List (String × Schema)) (u : Value)
        (K : List String) (rB : Value) (e : VError),
        validate base u (own.map Prod.fst) = .ok rB →
        validate (.srec name own) u [] = .error e →
        validate (.sext name base own) u K = .error e) ∧
    (∀ (name : String) (base : Schema) (own : List (String × Schema)) (u : Value)
        (K : List String) (rB rS : Value),
        validate base u (own.map Prod.fst) = .ok rB →
        validate (.srec name own) u [] = .ok rS →
        validate (.sext name base own) u K = .ok (objAssign rB rS)) ∧
    validate (.sext "E" (.srec "B" [("p", .sstr "p" [])]) [("p", .snum "p" [])])
        (.vObj [("p", .vNum (.fin 5))]) [] = .ok (.vObj [("p", .vNum (.fin 5))]) ∧
    validate (.srec "B" [("p", .sstr "p" [])]) (.vObj [("p", .vNum (.fin 5))]) []
        = .error (.invalidType "p" "string" (.vNum (.fin 5))) := by
  refine ⟨?_, ?_, ?_, ?_, ?_⟩
  · intro name base own u K e h1
    rw [ext_validate_eq, h1, ebind_err]
  · intro name base own u K rB e h1 h2
    rw [ext_validate_eq, h1, ebind_ok, h2, ebind_err]
  · intro name base own u K rB rS h1 h2
    rw [ext_validate_eq, h1, ebind_ok, h2, ebind_ok]
    rfl
  · rfl
  · rfl

/-- C3 witness: the success conjunct applied to a concrete disjoint
extension. -/
theorem claim_C3_witness :
    validate (.sext "E2" (.srec "B2" [("q", .snum "q" [])]) [("r", .sbool "r" none)])
        (.vObj [("q", .vNum (.fin 1)), ("r", .vBool true)]) [] =
      .ok (objAssign (.vObj [("q", .vNum (.fin 1))]) (.vObj [("r", .vBool true)])) :=
  claim_C3_extend_semantics.2.2.1 "E2" (.srec "B2" [("q", .snum "q" [])])
    [("r", .sbool "r" none)] (.vObj [("q", .vNum (.fin 1)), ("r", .vBool true)]) []
    (.vObj [("q", .vNum (.fin 1))]) (.vObj [("r", .vBool true)])
    rfl rfl

/-- C4: field pruning is total — a successful record validation returns a
mapping whose keys are exactly the non-ignored schema fields in table
order; a successful extension validation returns exactly the non-shadowed
base fields followed by the own fields; and a successful union validation
is the full validation of one of its branches (so its keys are the
selected branch's fields). -/
theorem claim_C4_pruning_total :
    (∀ (name : String) (fields : List (String × Schema)) (u : Value)
        (ign : List String) (r : Value),
        validate (.srec name fields) u ign = .ok r →
        ∃ pairs, r = .vObj pairs ∧
          pairs.map Prod.fst =
            (fields.map Prod.fst).filter (fun k => decide (k ∉ ign))) ∧
    (∀ (name bn : String) (bf own : List (String × Schema)) (u : Value)
        (ign : List String) (r : Value), (own.map Prod.fst).Nodup →
        validate (.sext name (.srec bn bf) own) u ign = .ok r →
        ∃ pairs, r = .vObj pairs ∧
          pairs.map Prod.fst =
            (bf.map Prod.fst).filter (fun k => decide (k ∉ own.map Prod.fst))
              ++ own.map Prod.fst) ∧
    (∀ (name disc : String) (branches : List Schema) (u r : Value),
        validate (.sunion name disc branches) u [] = .ok r →
        ∃ b ∈ branches, validate b u [] = .ok r) := by
  refine ⟨?_, ?_, ?_⟩
  · intro name fields u ign r h
    obtain ⟨-, pairs, hf, hr⟩ := rec_validate_ok h
    exact ⟨pairs, hr, validateFields_keys hf⟩
  · intro name bn bf own u ign r hond h
    rw [ext_validate_eq] at h
    obtain ⟨rB, hB, h⟩ := bind_ok_inv h
    obtain ⟨rS, hS, h⟩ := bind_ok_inv h
    have hr := pure_ok_inv h
    obtain ⟨-, bPairs, hbf2, hrB⟩ := rec_validate_ok hB
    subst hrB
    obtain ⟨-, oPairs, hof2, hrS⟩ := rec_validate_ok hS
    subst hrS
    have hkb := validateFields_keys hbf2
    have hko := validateFields_keys hof2
    have hko2 : oPairs.map Prod.fst = own.map Prod.fst := by
      rw [hko]
      apply List.filter_eq_self.mpr
      intro a _
      simp
    have hdisj : ∀ k ∈ oPairs.map Prod.fst, k ∉ bPairs.map Prod.fst := by
      rw [hko2, hkb]
      intro k hk hmem
      have hfil := List.of_mem_filter hmem
      simp only [decide_eq_true_eq] at hfil
      exact hfil hk
    have hndo : (oPairs.map Prod.fst).Nodup := by rw [hko2]; exact hond
    rw [objAssign_append hdisj hndo] at hr
    refine ⟨bPairs ++ oPairs, hr.symm, ?_⟩
    rw [List.map_append, hkb, hko2]
  · intro name disc branches u r h
    rw [union_validate_eq] at h
    exact unionGo_ok_branch branches h

/-- C4 witness: the three conjuncts instantiated at concrete schemas and
values with unknown and ignored fields present in the input. -/
theorem claim_C4_witness :
    (∃ pairs, Value.vObj [("a", .vBool true)] = .vObj pairs ∧
      pairs.map Prod.fst =
        (["a", "z"].filter (fun k => decide (k ∉ ["z"])))) ∧
    (∃ pairs, Value.vObj [("q", .vNum (.fin 1)), ("r", .vBool true)] = .vObj pairs ∧
      pairs.map Prod.fst =
        ((["q"].filter (fun k => decide (k ∉ ["r"]))) ++ ["r"])) ∧
    (∃ b ∈ [Schema.srec "k1" [("k", .sstr "k" ["x"])]],
      validate b (.vObj [("k", .vStr "x")]) [] = .ok (.vObj [("k", .vStr "x")])) := by
  refine ⟨?_, ?_, ?_⟩
  · obtain ⟨pairs, h1, h2⟩ := claim_C4_pruning_total.1 "W"
      [("a", .sbool "a" none), ("z", .snum "z" [])]
      (.vObj [("a", .vBool true), ("zz", .vNum (.fin 1))]) ["z"]
      (.vObj [("a", .vBool true)])
      rfl
    exact ⟨pairs, h1, h2⟩
  · obtain ⟨pairs, h1, h2⟩ := claim_C4_pruning_total.2.1 "E2" "B2"
      [("q", .snum "q" [])] [("r", .sbool "r" none)]
      (.vObj [("q", .vNum (.fin 1)), ("r", .vBool true), ("zz", .vNull)]) []
      (.vObj [("q", .vNum (.fin 1)), ("r", .vBool true)])
      (by simp)
      rfl
    exact ⟨pairs, h1, h2⟩
  · exact claim_C4_pruning_total.2.2 "U" "k" [Schema.srec "k1" [("k", .sstr "k" ["x"])]]
      (.vObj [("k", .vStr "x")]) (.vObj [("k", .vStr "x")]) rfl

/-- C5: union construction runs the discriminator check before the union
is usable — it succeeds precisely when every branch reports
`hasKey(discriminator)`, and with some branch lacking the field it fails
with the missing-discriminator error naming the first offending subschema,
the union and the discriminator. -/
theorem claim_C5_union_construction :
    ∀ (name disc : String) (branches : List Schema),
      (∀ b ∈ branches, ∃ hb, hasKey b disc = .ok hb) →
      (mkUnion name disc branches = .ok (.sunion name disc branches) ↔
        ∀ b ∈ branches, hasKey b disc = .ok true) ∧
      (∀ pre b post, branches = pre ++ b :: post →
        (∀ b2 ∈ pre, hasKey b2 disc = .ok true) →
        hasKey b disc = .ok false →
        mkUnion name disc branches =
          .error (.missingDiscriminator (schemaName b) name disc)) := by
  intro name disc branches hdef
  constructor
  · constructor
    · intro h
      exact checkBranches_ok (mkUnion_ok_inv h).1
    · intro hall
      have hck := (checkBranches_ok_iff name disc branches hdef).mpr hall
      rw [mkUnion, hck, ebind_ok]
      rfl
  · intro pre b post hsplit hpre hb
    subst hsplit
    rw [mkUnion, checkBranches_first_err pre post hpre hb, ebind_err]

/-- C5 witness: a two-branch union whose second branch lacks the
discriminator fails naming that branch, and the same union with the field
present constructs successfully. -/
theorem claim_C5_witness :
    (mkUnion "someUnion" "success"
        [.srec "someRec1" [("success", .sbool "success" (some true))],
         .srec "someRec2" [("prop1", .sbool "prop1" none)]] =
      .error (.missingDiscriminator "someRec2" "someUnion" "success")) ∧
    (mkUnion "ok" "success" [.srec "someRec1" [("success", .sbool "success" (some true))]] =
      .ok (.sunion "ok" "success"
        [.srec "someRec1" [("success", .sbool "success" (some true))]])) := by
  constructor
  · exact (claim_C5_union_construction "someUnion" "success"
      [.srec "someRec1" [("success", .sbool "success" (some true))],
       .srec "someRec2" [("prop1", .sbool "prop1" none)]]
      (by intro b hb
          rcases List.mem_cons.mp hb with h1 | h1
          · exact ⟨true, by subst h1; rfl⟩
          · simp only [List.mem_singleton] at h1
            exact ⟨false, by subst h1; rfl⟩)).2
      [.srec "someRec1" [("success", .sbool "success" (some true))]]
      (.srec "someRec2" [("prop1", .sbool "prop1" none)]) []
      rfl
      (by intro b2 hb2
          simp only [List.mem_singleton] at hb2
          subst hb2
          rfl)
      rfl
  · exact (claim_C5_union_construction "ok" "success"
      [.srec "someRec1" [("success", .sbool "success" (some true))]]
      (by intro b hb
          simp only [List.mem_singleton] at hb
          exact ⟨true, by subst hb; rfl⟩)).1.mpr
      (by intro b hb
          simp only [List.mem_singleton] at hb
          subst hb
          rfl)

/-- C6: when no branch's probe succeeds, a constructed union's validate
fails with the union-level error naming the union schema and the offending
value (the code's `InvalidTypeError(name, 'union', value)`); the
per-branch probe failures are swallowed by the probe's catch and do not
appear in the result. -/
theorem claim_C6_no_matching_branch :
    ∀ (name disc : String) (branches : List Schema) (u : Value),
      (∀ b ∈ branches, RecOrExt b) →
      mkUnion name disc branches = .ok (.sunion name disc branches) →
      (∀ b ∈ branches, claimProbe disc b u = false) →
      validate (.sunion name disc branches) u [] =
        .error (.invalidType name "union" u) := by
  intro name disc branches u hre hcon hfail
  rw [union_validate_eq,
    unionGo_eq_find branches hre (checkBranches_ok (mkUnion_ok_inv hcon).1) u]
  rw [List.find?_eq_none.mpr (fun b hb => by rw [hfail b hb]; simp)]

/-- C6 witness: a literal-true union probed with a false value. -/
theorem claim_C6_witness :
    validate (.sunion "U6" "s" [.srec "b6" [("s", .sbool "s" (some true))]])
        (.vObj [("s", .vBool false)]) [] =
      .error (.invalidType "U6" "union" (.vObj [("s", .vBool false)])) :=
  claim_C6_no_matching_branch "U6" "s" [.srec "b6" [("s", .sbool "s" (some true))]]
    (.vObj [("s", .vBool false)])
    (by intro b hb
        simp only [List.mem_singleton] at hb
        subst hb
        trivial)
    rfl
    (by intro b hb
        simp only [List.mem_singleton] at hb
        subst hb
        rfl)

/-- C1: a constructed union with record-like branches validates by
selecting the first branch in declaration order whose probe — the branch's
validate with the branch's own field names minus the discriminator passed
as ignored names — does not fail, and then returns the full re-validation
of the value against that branch with nothing ignored; with several
structurally-acceptable branches the earliest declared wins. -/
theorem claim_C1_union_first_match :
    ∀ (name disc : String) (branches : List Schema) (u : Value),
      (∀ b ∈ branches, RecOrExt b) →
      mkUnion name disc branches = .ok (.sunion name disc branches) →
      validate (.sunion name disc branches) u [] =
        (match branches.find? (fun b => claimProbe disc b u) with
         | some b => validate b u []
         | none => .error (.invalidType name "union" u)) := by
  intro name disc branches u hre hcon
  rw [union_validate_eq]
  exact unionGo_eq_find branches hre (checkBranches_ok (mkUnion_ok_inv hcon).1) u

/-- C1 witness: the documentation example — branches keyed `hello` and
`greetings`, input tagged `greetings` — resolves through the claim's
first-match search and returns the second branch's pruned result. -/
theorem claim_C1_witness :
    (validate (.sunion "someUnion" "kind"
        [.srec "h1" [("kind", .sstr "kind" ["hello"]), ("foo", .sbool "foo" none)],
         .srec "g1" [("kind", .sstr "kind" ["greetings"]), ("baz", .sbool "baz" none)]])
        (.vObj [("kind", .vStr "greetings"), ("baz", .vBool true)]) [] =
      (match List.find? (fun b => claimProbe "kind" b
          (.vObj [("kind", .vStr "greetings"), ("baz", .vBool true)]))
          [.srec "h1" [("kind", .sstr "kind" ["hello"]), ("foo", .sbool "foo" none)],
           .srec "g1" [("kind", .sstr "kind" ["greetings"]), ("baz", .sbool "baz" none)]] with
       | some b => validate b
           (.vObj [("kind", .vStr "greetings"), ("baz", .vBool true)]) []
       | none => .error (.invalidType "someUnion" "union"
           (.vObj [("kind", .vStr "greetings"), ("baz", .vBool true)])))) ∧
    validate (.sunion "someUnion" "kind"
        [.srec "h1" [("kind", .sstr "kind" ["hello"]), ("foo", .sbool "foo" none)],
         .srec "g1" [("kind", .sstr "kind" ["greetings"]), ("baz", .sbool "baz" none)]])
        (.vObj [("kind", .vStr "greetings"), ("baz", .vBool true)]) [] =
      .ok (.vObj [("kind", .vStr "greetings"), ("baz", .vBool true)]) := by
  constructor
  · exact claim_C1_union_first_match "someUnion" "kind"
      [.srec "h1" [("kind", .sstr "kind" ["hello"]), ("foo", .sbool "foo" none)],
       .srec "g1" [("kind", .sstr "kind" ["greetings"]), ("baz", .sbool "baz" none)]]
      (.vObj [("kind", .vStr "greetings"), ("baz", .vBool true)])
      (by intro b hb
          rcases List.mem_cons.mp hb with h1 | h1
          · subst h1; trivial
          · simp only [List.mem_singleton] at h1
            subst h1; trivial)
      rfl
  · rfl

/-- C7 counterexample: with the identity codec (trivially lossless), a
value accepted by a record schema but carrying an extra field round-trips
to its pruned form, not to itself — refuting the claim for arbitrary
accepted values. -/
theorem claim_C7_counterexample :
    validate (.srec "user" [("id", .sstr "id" [])])
        (.vObj [("id", .vStr "1"), ("email", .vStr "x")]) []
      = .ok (.vObj [("id", .vStr "1")]) ∧
    serialize (fun v : Value => v) (.srec "user" [("id", .sstr "id" [])])
        (.vObj [("id", .vStr "1"), ("email", .vStr "x")])
      = .ok (.vObj [("id", .vStr "1")]) ∧
    deserialize (fun v : Value => v) (.srec "user" [("id", .sstr "id" [])])
        (.vObj [("id", .vStr "1")])
      = .ok (.vObj [("id", .vStr "1")]) ∧
    Value.vObj [("id", .vStr "1")] ≠
      .vObj [("id", .vStr "1"), ("email", .vStr "x")] := by
  refine ⟨rfl, rfl, rfl, ?_⟩
  intro h
  injection h with h1
  injection h1 with h2 h3
  cases h3

/-- C7 amended: for every lossless codec and every value that validation
returns unchanged (a field-complete, already-canonical value), serialize
followed by deserialize reproduces the value exactly. -/
theorem claim_C7_roundtrip_amended :
    ∀ {β : Type} (pack : Value → β) (unpack : β → Value),
      (∀ x, unpack (pack x) = x) →
      ∀ (s : Schema) (v : Value), validate s v [] = .ok v →
        serialize pack s v = .ok (pack v) ∧
        deserialize unpack s (pack v) = .ok v := by
  intro β pack unpack hcodec s v hv
  constructor
  · rw [serialize, hv]
    rfl
  · rw [deserialize, hcodec, hv]

/-- C7 witness: the identity codec on a boolean schema and value. -/
theorem claim_C7_witness :
    serialize (fun v : Value => v) (.sbool "b" none) (.vBool true)
        = .ok (.vBool true) ∧
    deserialize (fun v : Value => v) (.sbool "b" none) (.vBool true)
        = .ok (.vBool true) :=
  claim_C7_roundtrip_amended (fun v => v) (fun v => v) (fun _ => rfl)
    (.sbool "b" none) (.vBool true) rfl

/-- C8 counterexample: a legitimately constructed union whose branches
discriminate on a record-typed field is not idempotent — validating the
input selects the second branch and prunes its discriminator record, and
re-validating the pruned result flips resolution to the first branch
(whose optional field now accepts the pruned-away value), yielding a
different result. -/
theorem claim_C8_counterexample :
    mkUnion "U" "d"
        [.srec "b1" [("d", .srec "d1" [("a", .sopt (.snum "a" []))]),
                     ("x", .sopt (.snum "x" []))],
         .srec "b2" [("d", .srec "d2" [("b", .snum "b" [])]), ("y", .snum "y" [])]]
      = .ok (.sunion "U" "d"
        [.srec "b1" [("d", .srec "d1" [("a", .sopt (.snum "a" []))]),
                     ("x", .sopt (.snum "x" []))],
         .srec "b2" [("d", .srec "d2" [("b", .snum "b" [])]), ("y", .snum "y" [])]]) ∧
    validate (.sunion "U" "d"
        [.srec "b1" [("d", .srec "d1" [("a", .sopt (.snum "a" []))]),
                     ("x", .sopt (.snum "x" []))],
         .srec "b2" [("d", .srec "d2" [("b", .snum "b" [])]), ("y", .snum "y" [])]])
        (.vObj [("d", .vObj [("a", .vStr "bad"), ("b", .vNum (.fin 3))]),
                ("y", .vNum (.fin 5))]) []
      = .ok (.vObj [("d", .vObj [("b", .vNum (.fin 3))]), ("y", .vNum (.fin 5))]) ∧
    validate (.sunion "U" "d"
        [.srec "b1" [("d", .srec "d1" [("a", .sopt (.snum "a" []))]),
                     ("x", .sopt (.snum "x" []))],
         .srec "b2" [("d", .srec "d2" [("b", .snum "b" [])]), ("y", .snum "y" [])]])
        (.vObj [("d", .vObj [("b", .vNum (.fin 3))]), ("y", .vNum (.fin 5))]) []
      = .ok (.vObj [("d", .vObj [("a", .vUndefined)]), ("x", .vUndefined)]) ∧
    Value.vObj [("d", .vObj [("a", .vUndefined)]), ("x", .vUndefined)] ≠
      .vObj [("d", .vObj [("b", .vNum (.fin 3))]), ("y", .vNum (.fin 5))] := by
  refine ⟨rfl, rfl, rfl, ?_⟩
  intro h
  injection h with h1
  injection h1 with h2 h3
  injection h2 with h4 h5
  injection h5 with h6
  injection h6 with h7 h8
  injection h7 with h9 h10
  exact absurd h9 (by decide)

/-- C8 amended: validation composed with itself equals validation, as
partial functions, for every schema in the `Good` class — duplicate-free
field tables, extensions of plain records, and unions of plain record
branches with scalar discriminator validators (the shapes the library's
documentation and tests construct). -/
theorem claim_C8_idempotence_amended :
    ∀ (s : Schema), Good s → ∀ (v : Value),
      (validate s v []).bind (fun r => validate s r []) = validate s v [] := by
  intro s hg v
  cases hv : validate s v [] with
  | error e => rfl
  | ok r => exact (good_idem hg v [] r hv).1

/-- C8 witness: the amended idempotence applied to a record schema and an
input carrying an unknown extra field. -/
theorem claim_C8_witness :
    (validate (.srec "R" [("a", .snum "a" [])])
        (.vObj [("a", .vNum (.fin 2)), ("b", .vBool true)]) []).bind
      (fun r => validate (.srec "R" [("a", .snum "a" [])]) r []) =
    validate (.srec "R" [("a", .snum "a" [])])
        (.vObj [("a", .vNum (.fin 2)), ("b", .vBool true)]) [] :=
  claim_C8_idempotence_amended (.srec "R" [("a", .snum "a" [])])
    (Good.grec "R" [("a", .snum "a" [])] (by simp)
      (by intro p hp
          simp only [List.mem_singleton] at hp
          subst hp
          exact Good.gnum "a" []))
    (.vObj [("a", .vNum (.fin 2)), ("b", .vBool true)])

end SchemaBob
